import Mathlib

/-!
Verification of the go-camApp camera pipeline against its specification.

The Go sources are shallowly embedded: channels become FIFO lists with an
explicit capacity, atomic counters become natural numbers, goroutine loop
bodies become step functions over explicit state, and external collaborators
(the V4L2 device, the JPEG codec, the Go standard library sort) are either
parameters or are modelled by their documented contracts.
-/

namespace CamApp

/-! ### Frame Capture Stage (clay_sdl3/camera.go captureFramesForCamera,
puregio/camera.go captureFramesForCamera)

The V4L2 branch of `captureFramesForCamera` reads frames from the device
output channel and forwards them into `camera.FrameChan`, a Go channel with
a fixed capacity (10 in clay_sdl3, 5 in puregio).  A `nil` frame increments
`camera.DroppedFrames` and retries; otherwise a non-blocking
`select { case camera.FrameChan <- frame: default: ... }` either appends the
frame to the channel buffer (when not full) or drops it and increments
`camera.DroppedFrames`.  With no consumer draining, the channel is a FIFO
list bounded by its capacity. -/

structure CaptureState (Frame : Type) where
  queue : List Frame
  dropped : Nat
deriving Repr, DecidableEq

/-- One loop iteration of the V4L2 branch of `captureFramesForCamera`, for one
value received from `camera.Device.GetOutput()`: `none` models a nil frame
(counter incremented, retry); `some f` models the non-blocking send into the
capacity-`cap` channel, dropping the frame and incrementing the counter when
the buffer is full. -/
def captureStep {Frame : Type} (cap : Nat) (st : CaptureState Frame) :
    Option Frame → CaptureState Frame
  | none => { st with dropped := st.dropped + 1 }
  | some f =>
      if st.queue.length < cap then { st with queue := st.queue ++ [f] }
      else { st with dropped := st.dropped + 1 }

/-- Running the capture loop over a finite sequence of device outputs with no
consumer draining the channel. -/
def captureRun {Frame : Type} (cap : Nat) (st : CaptureState Frame)
    (frames : List (Option Frame)) : CaptureState Frame :=
  frames.foldl (captureStep cap) st

theorem captureRun_nil {Frame : Type} (cap : Nat) (st : CaptureState Frame) :
    captureRun cap st [] = st := rfl

theorem captureRun_cons {Frame : Type} (cap : Nat) (st : CaptureState Frame)
    (f : Option Frame) (fs : List (Option Frame)) :
    captureRun cap st (f :: fs) = captureRun cap (captureStep cap st f) fs := rfl

/-- Fold invariant for the capture loop: starting from a queue that still has
`cap - st.queue.length` free slots, pushing the (non-nil) frames `fs` keeps
the oldest entries and drops the overflow. -/
theorem captureRun_invariant {Frame : Type} (cap : Nat) :
    ∀ (fs : List Frame) (st : CaptureState Frame), st.queue.length ≤ cap →
      captureRun cap st (fs.map some) =
        { queue := st.queue ++ fs.take (cap - st.queue.length),
          dropped := st.dropped + (fs.length - (cap - st.queue.length)) } := by
  intro fs
  induction fs with
  | nil =>
      intro st h
      simp [captureRun]
  | cons f fs ih =>
      intro st h
      rw [List.map_cons, captureRun_cons]
      by_cases hlt : st.queue.length < cap
      · rw [show captureStep cap st (some f) = { st with queue := st.queue ++ [f] } by
          simp [captureStep, hlt]]
        rw [ih _ (by simp only [List.length_append, List.length_cons, List.length_nil]; omega)]
        simp only [CaptureState.mk.injEq, List.length_append, List.length_cons,
          List.length_nil]
        constructor
        · rw [show cap - st.queue.length = (cap - (st.queue.length + 1)) + 1 by omega,
            List.take_succ_cons, List.append_assoc]
          rfl
        · omega
      · have hfull : st.queue.length = cap := by omega
        rw [show captureStep cap st (some f) = { st with dropped := st.dropped + 1 } by
          simp [captureStep, hlt]]
        rw [ih ⟨st.queue, st.dropped + 1⟩ h]
        simp only [CaptureState.mk.injEq, List.length_cons]
        constructor
        · simp [hfull]
        · omega

/-- C1, counterexample.  Two distinct frames pushed into a capacity-1 queue
with no consumer: the retained frame is the first one pushed, not the most
recent one, so the retained frames are not "the most recent K of the N
pushed" as the claim states (the drop counter does read N − K = 1). -/
theorem capture_drop_newest_counterexample :
    (captureRun 1 ⟨[], 0⟩ ([0, 1].map some)).queue ≠ [1] ∧
      (captureRun 1 ⟨[], 0⟩ ([(0 : Nat), 1].map some)).queue = [0] ∧
      (captureRun 1 ⟨[], 0⟩ ([(0 : Nat), 1].map some)).dropped = 1 := by
  refine ⟨?_, rfl, rfl⟩
  decide

/-- C1, amended.  If N frames are pushed into a capture queue of capacity
K < N with no consumer draining, exactly K frames are retained, the
dropped-frame counter is incremented exactly N − K times, and the retained
frames are the first K of the N pushed: the non-blocking enqueue rejects the
incoming (newest) frame when the queue is full. -/
theorem capture_retains_first_K (K : Nat) (frames : List Frame)
    (hK : K < frames.length) :
    (captureRun K ⟨[], 0⟩ (frames.map some)).queue = frames.take K ∧
      (captureRun K ⟨[], 0⟩ (frames.map some)).queue.length = K ∧
      (captureRun K ⟨[], 0⟩ (frames.map some)).dropped = frames.length - K := by
  have h := captureRun_invariant K frames (⟨[], 0⟩ : CaptureState Frame) (by simp)
  simp only [List.length_nil, Nat.sub_zero, List.nil_append, Nat.zero_add] at h
  rw [h]
  refine ⟨rfl, ?_, rfl⟩
  simp only [List.length_take]
  omega

/-- Witness for `capture_retains_first_K` at K = 1, frames = [0, 1]. -/
theorem capture_retains_first_K_witness :
    (1 < ([(0 : Nat), 1] : List Nat).length) ∧
      (captureRun 1 ⟨[], 0⟩ ([(0 : Nat), 1].map some)).queue = [(0 : Nat), 1].take 1 := by
  refine ⟨by decide, (capture_retains_first_K 1 [0, 1] (by decide)).1⟩

/-! ### Camera Registry of the GLFW variant (src/unnamed/part_001:
`initCamera`, `closeCamera`, global `droppedFrames`)

The GLFW variant keeps three pieces of global state that the registry claims
are about: `cameras` (the discovered descriptors), `activeCameras` (one
`*device.Device` slot per descriptor, `nil` when inactive), and a single
process-global `droppedFrames uint64` counter.  Device handles are modelled
as natural numbers served by a `nextHandle` allocator, and `opens` counts the
successful `device.Open`/`Start` pairs (each of which hands the device to a
consumer), so that starting a duplicate task is observable in the model. -/

structure GlfwDescriptor where
  pathNum : Nat
  name : String
  index : Nat
deriving Repr, DecidableEq

structure GlfwState where
  cameras : List GlfwDescriptor
  activeCameras : List (Option Nat)
  droppedFrames : Nat
  nextHandle : Nat
  opens : Nat
deriving Repr, DecidableEq

/-- Outcome of `initCamera` (the Go function returns `error`). -/
inductive InitResult
  | ok
  | indexOutOfRange
  | openFailed
  | startFailed
deriving Repr, DecidableEq

/-- Environment for one `initCamera` call: whether the external
`device.Open` and `dev.Start` calls succeed. -/
structure CamEnv where
  openOk : Bool
  startOk : Bool
deriving Repr, DecidableEq

/-- `initCamera(index)` from src/unnamed/part_001: returns immediately (nil
error, no new open, no new task) when `activeCameras[index] != nil`; errors
when the index is out of range or when open/start fail (a failed start closes
the partially opened device, retaining nothing); otherwise stores the freshly
opened handle in `activeCameras[index]`.  The global `droppedFrames` counter
is not touched on any path. -/
def initCamera (env : CamEnv) (st : GlfwState) (index : Nat) :
    GlfwState × InitResult :=
  match st.activeCameras[index]? with
  | some (some _) => (st, .ok)
  | _ =>
      if index ≥ st.cameras.length then (st, .indexOutOfRange)
      else if !env.openOk then (st, .openFailed)
      else if !env.startOk then (st, .startFailed)
      else
        ({ st with
            activeCameras := st.activeCameras.set index (some st.nextHandle),
            nextHandle := st.nextHandle + 1,
            opens := st.opens + 1 }, .ok)

/-- `closeCamera(index)` from src/unnamed/part_001: a no-op when the index is
out of range or the slot is already `nil`; otherwise stops and closes the
device and clears the slot.  `droppedFrames` is not reset. -/
def closeCamera (st : GlfwState) (index : Nat) : GlfwState :=
  match st.activeCameras[index]? with
  | some (some _) => { st with activeCameras := st.activeCameras.set index none }
  | _ => st

/-- C4, confirmed.  When the descriptor at `index` is already active,
a second `initCamera` call returns success and leaves the whole registry
state unchanged: the existing instance stays in place, no device is
re-opened, and no duplicate capture task is started (`opens` is unchanged),
so at most one instance per descriptor is ever active. -/
theorem initCamera_idempotent (env : CamEnv) (st : GlfwState) (index : Nat)
    (h : ∃ handle, st.activeCameras[index]? = some (some handle)) :
    initCamera env st index = (st, .ok) := by
  obtain ⟨handle, hh⟩ := h
  simp only [initCamera, hh]

/-- Witness for `initCamera_idempotent`: one descriptor, slot 0 active with
handle 7. -/
theorem initCamera_idempotent_witness :
    initCamera ⟨true, true⟩ ⟨[⟨0, "Cam A", 0⟩], [some 7], 3, 8, 1⟩ 0 =
      (⟨[⟨0, "Cam A", 0⟩], [some 7], 3, 8, 1⟩, .ok) :=
  initCamera_idempotent ⟨true, true⟩ ⟨[⟨0, "Cam A", 0⟩], [some 7], 3, 8, 1⟩ 0
    ⟨7, rfl⟩

/-- C5, counterexample.  `closeCamera 0` followed by `initCamera 0` on a
registry whose global dropped-frame counter reads 5 succeeds and installs a
fresh handle, but the counter still reads 5, not 0: src/unnamed/part_001
keeps a single process-global `droppedFrames` that neither `closeCamera` nor
`initCamera` resets. -/
theorem deactivate_activate_counter_counterexample :
    (initCamera ⟨true, true⟩
        (closeCamera ⟨[⟨0, "Cam A", 0⟩], [some 0], 5, 1, 1⟩ 0) 0).2 = .ok ∧
      (initCamera ⟨true, true⟩
          (closeCamera ⟨[⟨0, "Cam A", 0⟩], [some 0], 5, 1, 1⟩ 0) 0).1.droppedFrames
        ≠ 0 := by
  constructor
  · rfl
  · decide

/-- C5, amended.  `closeCamera` followed immediately by `initCamera` on the
same in-range descriptor succeeds (given the device opens and starts) and
yields a fresh instance: the slot holds a newly allocated handle distinct
from the one that was closed.  The dropped-frame counter, however, is a
process-global that is not reset: it still reads its prior value. -/
theorem deactivate_activate_fresh_instance (st : GlfwState) (index : Nat)
    (handle : Nat)
    (hslot : st.activeCameras[index]? = some (some handle))
    (hfresh : handle < st.nextHandle)
    (hidx : index < st.cameras.length) :
    (initCamera ⟨true, true⟩ (closeCamera st index) index).2 = .ok ∧
      (initCamera ⟨true, true⟩ (closeCamera st index) index).1.activeCameras[index]?
        = some (some st.nextHandle) ∧
      st.nextHandle ≠ handle ∧
      (initCamera ⟨true, true⟩ (closeCamera st index) index).1.droppedFrames
        = st.droppedFrames := by
  have hlen : index < st.activeCameras.length :=
    (List.getElem?_eq_some.mp hslot).1
  have hclose : closeCamera st index =
      { st with activeCameras := st.activeCameras.set index none } := by
    simp only [closeCamera, hslot]
  have hget : (st.activeCameras.set index none)[index]? = some none :=
    List.getElem?_set_self hlen
  rw [hclose]
  simp only [initCamera, hget]
  rw [if_neg (show ¬st.cameras.length ≤ index from not_le.mpr hidx)]
  refine ⟨rfl, ?_, by omega, rfl⟩
  exact List.getElem?_set_self (by simpa using hlen)

/-- Witness for `deactivate_activate_fresh_instance` on a one-camera
registry with handle 0 active and a dropped count of 5. -/
theorem deactivate_activate_fresh_instance_witness :
    (initCamera ⟨true, true⟩
        (closeCamera ⟨[⟨0, "Cam A", 0⟩], [some 0], 5, 1, 1⟩ 0) 0).1.activeCameras[0]?
      = some (some 1) :=
  (deactivate_activate_fresh_instance ⟨[⟨0, "Cam A", 0⟩], [some 0], 5, 1, 1⟩ 0 0
    rfl (by decide) (by decide)).2.1

/-! ### Keyboard camera selection (src/unnamed/part_003 `handleKeyPress`)

`handleKeyPress` mutates `appData.SelectedCamera` (a Go `int`, modelled as
`Int`): left arrow decrements when positive, right arrow increments when
below `len(appData.Cameras)-1` (Go `int` arithmetic, so for an empty list
the bound is `-1`), and the number keys 1..9 select index `scancode -
SCANCODE_1` (0..8) when below `len(appData.Cameras)`.  All other scancodes
fall through unchanged. -/

inductive KeyInput
  | leftArrow
  | rightArrow
  | numberKey (k : Fin 9)
  | otherKey
deriving DecidableEq

/-- `handleKeyPress` from src/unnamed/part_003: the new value of
`SelectedCamera` given the current one and the number of cameras. -/
def handleKeyPress (numCameras : Nat) (selected : Int) : KeyInput → Int
  | .leftArrow => if selected > 0 then selected - 1 else selected
  | .rightArrow =>
      if selected < (numCameras : Int) - 1 then selected + 1 else selected
  | .numberKey k => if (k.val : Int) < (numCameras : Int) then k.val else selected
  | .otherKey => selected

/-- The range invariant on `SelectedCamera`: inside `[0, numCameras-1]`, or
`0` when the camera list is empty. -/
def SelectedInRange (numCameras : Nat) (selected : Int) : Prop :=
  (numCameras = 0 ∧ selected = 0) ∨ (0 ≤ selected ∧ selected < (numCameras : Int))

/-- C8, confirmed.  Every key press handled by `handleKeyPress` preserves the
`SelectedCamera` range invariant: the left arrow decrements only above 0, the
right arrow increments only below `len(Cameras)-1`, and a number key selects
`k` only when `k < len(Cameras)`. -/
theorem handleKeyPress_preserves_range (numCameras : Nat) (selected : Int)
    (key : KeyInput) (h : SelectedInRange numCameras selected) :
    SelectedInRange numCameras (handleKeyPress numCameras selected key) := by
  rcases key with _ | _ | k | _ <;>
    simp only [handleKeyPress, SelectedInRange] at h ⊢ <;>
    first
      | (split <;> omega)
      | omega

/-- Witness for `handleKeyPress_preserves_range`: right arrow from index 0
with two cameras. -/
theorem handleKeyPress_preserves_range_witness :
    SelectedInRange 2 0 ∧ SelectedInRange 2 (handleKeyPress 2 0 .rightArrow) :=
  ⟨Or.inr (by decide),
    handleKeyPress_preserves_range 2 0 .rightArrow (Or.inr (by decide))⟩

/-! ### Frame Decode Stage (puregio/camera.go `processFramesForCamera`,
clay_sdl3/camera.go `updateCameraTextures` and `updateCameraFrames`)

The JPEG codec is an external collaborator and is a parameter `decode`;
a corrupt frame is one on which it fails.  In puregio the decode stage is a
goroutine: on a received frame, decode failure increments
`camera.DroppedFrames` and continues; decode success converts to RGBA and
attempts a non-blocking publish into `ProcessedFrameChan` (capacity 2),
dropping and counting on overflow.  A closed channel exits the loop; the
100 ms timeout re-checks the `Active` flag.

In clay_sdl3 the decode happens in `updateCameraTextures`, called from the
render loop: decode failure returns an error and touches no counter; the
caller `updateCameraFrames` merely logs the error and carries on. -/

inductive LoopOutcome
  | continueLoop
  | exitLoop
deriving Repr, DecidableEq

/-- Events a decode-stage loop iteration can react to. -/
inductive DecodeEvent (Frame : Type)
  | recv (f : Frame)
  | chanClosed
  | timeout (active : Bool)

/-- State of the puregio decode stage: the dropped-frame counter and the
contents of the bounded `ProcessedFrameChan`. -/
structure DecodeState (Img : Type) where
  dropped : Nat
  published : List Img
deriving Repr, DecidableEq

/-- One iteration of the V4L2 branch of puregio `processFramesForCamera`:
decode failure counts a drop and continues; success publishes non-blockingly
into the capacity-`cap` processed-frame channel with the same
drop-newest-on-full policy as capture. -/
def processFramesStep {Frame Img : Type} (decode : Frame → Option Img)
    (cap : Nat) (st : DecodeState Img) :
    DecodeEvent Frame → DecodeState Img × LoopOutcome
  | .recv f =>
      match decode f with
      | none => ({ st with dropped := st.dropped + 1 }, .continueLoop)
      | some img =>
          if st.published.length < cap then
            ({ st with published := st.published ++ [img] }, .continueLoop)
          else
            ({ st with dropped := st.dropped + 1 }, .continueLoop)
  | .chanClosed => (st, .exitLoop)
  | .timeout active => (st, if active then .continueLoop else .exitLoop)

/-- State of a clay_sdl3 camera as seen by `updateCameraTextures`: the
dropped-frame counter and the current contents of the main texture. -/
structure ClayCamState (Img : Type) where
  dropped : Nat
  texture : Option Img
deriving Repr, DecidableEq

/-- clay_sdl3 `updateCameraTextures`: decode failure returns an error and
leaves the state (including `DroppedFrames`) untouched; success uploads the
decoded image to the texture. -/
def updateCameraTextures {Frame Img : Type} (decode : Frame → Option Img)
    (st : ClayCamState Img) (frameData : Frame) :
    ClayCamState Img × Except String Unit :=
  match decode frameData with
  | none => (st, .error "failed to decode frame")
  | some img => ({ st with texture := some img }, .ok ())

/-- One frame handled by the clay_sdl3 render-loop consumer
`updateCameraFrames`: the error from `updateCameraTextures` is logged and the
loop continues regardless. -/
def clayFrameStep {Frame Img : Type} (decode : Frame → Option Img)
    (st : ClayCamState Img) (frameData : Frame) :
    ClayCamState Img × LoopOutcome :=
  ((updateCameraTextures decode st frameData).1, .continueLoop)

/-- C3, counterexample.  In the clay_sdl3 variant a corrupt frame (decode
fails) is consumed without terminating the loop, but the dropped-frame
counter is NOT incremented: starting from a zero counter it still reads 0
after the corrupt frame, not 1 as the claim requires. -/
theorem clay_decode_failure_counter_counterexample :
    (clayFrameStep (fun _ : Nat => (none : Option Unit)) ⟨0, none⟩ 0).1.dropped
        = 0 ∧
      (clayFrameStep (fun _ : Nat => (none : Option Unit)) ⟨0, none⟩ 0).1.dropped
        ≠ 0 + 1 := by
  exact ⟨rfl, by decide⟩

/-- C3, amended.  A corrupt raw frame never terminates the consuming loop in
either variant; the puregio decode stage increments the source's
dropped-frame counter exactly once per corrupt frame, while the clay_sdl3
texture-update path returns an error and leaves the counter unchanged. -/
theorem decode_failure_never_terminates {Frame Img : Type}
    (decode : Frame → Option Img) (cap : Nat) (st : DecodeState Img)
    (stc : ClayCamState Img) (f : Frame) (hcorrupt : decode f = none) :
    processFramesStep decode cap st (.recv f) =
        ({ st with dropped := st.dropped + 1 }, .continueLoop) ∧
      (clayFrameStep decode stc f).2 = .continueLoop ∧
      (clayFrameStep decode stc f).1.dropped = stc.dropped := by
  refine ⟨?_, rfl, ?_⟩
  · simp only [processFramesStep, hcorrupt]
  · simp only [clayFrameStep, updateCameraTextures, hcorrupt]

/-- Witness for `decode_failure_never_terminates` with an always-failing
decoder on a concrete frame. -/
theorem decode_failure_never_terminates_witness :
    processFramesStep (fun _ : Nat => (none : Option Unit)) 2 ⟨3, []⟩ (.recv 0)
      = (⟨4, []⟩, .continueLoop) :=
  (decode_failure_never_terminates (fun _ : Nat => (none : Option Unit)) 2
    ⟨3, []⟩ ⟨0, none⟩ 0 rfl).1

/-! ### Image scaling (clay_sdl3/camera.go `scaleImage`)

`image.RGBA` is modelled as a rectangle plus a pixel map; `At` returns the
zero colour outside the bounds and `Set` is a no-op there, exactly like the
Go `image` package.  Go `int` division truncates toward zero (`Int.tdiv`).
`scaleImage` additionally returns the list of coordinates it passes to
`src.At`, so that the "every source pixel it reads" part of the claim is
expressible. -/

structure GoRect where
  minX : Int
  minY : Int
  maxX : Int
  maxY : Int
deriving Repr, DecidableEq

/-- `Rectangle.Dx`. -/
def GoRect.dx (r : GoRect) : Int := r.maxX - r.minX

/-- `Rectangle.Dy`. -/
def GoRect.dy (r : GoRect) : Int := r.maxY - r.minY

/-- `Point{x, y}.In(r)`. -/
def GoRect.contains (r : GoRect) (x y : Int) : Prop :=
  r.minX ≤ x ∧ x < r.maxX ∧ r.minY ≤ y ∧ y < r.maxY

instance (r : GoRect) (x y : Int) : Decidable (r.contains x y) := by
  unfold GoRect.contains; infer_instance

/-- An `image.RGBA`: bounds, pixel contents, and the zero colour value that
`At` yields outside the bounds. -/
structure GoRGBA (Color : Type) where
  rect : GoRect
  pix : Int → Int → Color
  zero : Color

/-- `(*image.RGBA).At`: the zero colour outside the bounds. -/
def GoRGBA.At {Color : Type} (img : GoRGBA Color) (x y : Int) : Color :=
  if img.rect.contains x y then img.pix x y else img.zero

/-- `(*image.RGBA).Set`: a no-op outside the bounds. -/
def GoRGBA.setPix {Color : Type} (img : GoRGBA Color) (x y : Int) (c : Color) :
    GoRGBA Color :=
  if img.rect.contains x y then
    { img with pix := fun a b => if a = x ∧ b = y then c else img.pix a b }
  else img

/-- `scaleImage` from clay_sdl3/camera.go, instrumented with the list of
coordinates handed to `src.At`: dimensions are `Dx/scaleFactor` and
`Dy/scaleFactor` clamped below by 1, the destination starts at origin 0, and
each destination pixel (x, y) is filled from source coordinate
(x*scaleFactor, y*scaleFactor) whenever that coordinate is below (Dx, Dy). -/
def scaleImage {Color : Type} (src : GoRGBA Color) (scaleFactor : Int) :
    GoRGBA Color × List (Int × Int) :=
  let newWidth0 := src.rect.dx.tdiv scaleFactor
  let newHeight0 := src.rect.dy.tdiv scaleFactor
  let newWidth := if newWidth0 < 1 then 1 else newWidth0
  let newHeight := if newHeight0 < 1 then 1 else newHeight0
  let dst0 : GoRGBA Color :=
    { rect := ⟨0, 0, newWidth, newHeight⟩, pix := fun _ _ => src.zero,
      zero := src.zero }
  (List.range newHeight.toNat).foldl (fun accY (y : Nat) =>
    (List.range newWidth.toNat).foldl (fun acc (x : Nat) =>
      let srcX := (x : Int) * scaleFactor
      let srcY := (y : Int) * scaleFactor
      if srcX < src.rect.dx ∧ srcY < src.rect.dy then
        ((acc.1).setPix x y (src.At srcX srcY), acc.2 ++ [(srcX, srcY)])
      else acc) accY) (dst0, [])

/-- Fold invariance helper: a property preserved by each step holds of the
final accumulator. -/
theorem foldl_preserves {α β : Type} (P : β → Prop) (step : β → α → β)
    (hstep : ∀ b a, P b → P (step b a)) :
    ∀ (l : List α) (b : β), P b → P (l.foldl step b) := by
  intro l
  induction l with
  | nil => intro b hb; exact hb
  | cons a l ih => intro b hb; exact ih _ (hstep b a hb)

/-- C10, counterexample.  For a source whose bounds do not start at the
origin (Min = (1,1), Max = (2,2)) and scale factor 1, `scaleImage` reads
source coordinate (0, 0), which lies outside the source bounds: the guard
checks the coordinate against (Dx, Dy), not against the rectangle itself. -/
theorem scaleImage_reads_out_of_bounds_counterexample :
    (scaleImage { rect := ⟨1, 1, 2, 2⟩, pix := fun _ _ => (), zero := () } 1).2
        = [(0, 0)] ∧
      ¬(GoRect.contains ⟨1, 1, 2, 2⟩ 0 0) := by
  exact ⟨rfl, by decide⟩

/-- C10, amended.  For every source image and scale factor of at least 1,
`scaleImage` yields bounds of width `max 1 (Dx/factor)` and height
`max 1 (Dy/factor)` anchored at the origin — never a zero dimension — and,
provided the source bounds themselves start at the origin (as they do for
every image the callers produce via `image.NewRGBA` of a decoded frame),
every coordinate passed to `src.At` lies within the source bounds. -/
theorem scaleImage_dims_and_reads {Color : Type} (src : GoRGBA Color)
    (scaleFactor : Int) (hf : 1 ≤ scaleFactor) :
    (scaleImage src scaleFactor).1.rect =
        ⟨0, 0, max 1 (src.rect.dx.tdiv scaleFactor),
          max 1 (src.rect.dy.tdiv scaleFactor)⟩ ∧
      0 < (scaleImage src scaleFactor).1.rect.dx ∧
      0 < (scaleImage src scaleFactor).1.rect.dy ∧
      (src.rect.minX = 0 → src.rect.minY = 0 →
        ∀ p ∈ (scaleImage src scaleFactor).2,
          src.rect.contains p.1 p.2) := by
  have key : (scaleImage src scaleFactor).1.rect =
        ⟨0, 0, max 1 (src.rect.dx.tdiv scaleFactor),
          max 1 (src.rect.dy.tdiv scaleFactor)⟩ ∧
      ∀ p ∈ (scaleImage src scaleFactor).2,
        0 ≤ p.1 ∧ p.1 < src.rect.dx ∧ 0 ≤ p.2 ∧ p.2 < src.rect.dy := by
    unfold scaleImage
    simp only []
    set nW := src.rect.dx.tdiv scaleFactor with hnW
    set nH := src.rect.dy.tdiv scaleFactor with hnH
    have hmaxW : (if nW < 1 then 1 else nW) = max 1 nW := by
      rcases le_or_lt 1 nW with h | h
      · rw [if_neg (by omega), max_eq_right h]
      · rw [if_pos h, max_eq_left (by omega)]
    have hmaxH : (if nH < 1 then 1 else nH) = max 1 nH := by
      rcases le_or_lt 1 nH with h | h
      · rw [if_neg (by omega), max_eq_right h]
      · rw [if_pos h, max_eq_left (by omega)]
    apply foldl_preserves
      (fun acc : GoRGBA Color × List (Int × Int) =>
        acc.1.rect = ⟨0, 0, max 1 nW, max 1 nH⟩ ∧
          ∀ p ∈ acc.2, 0 ≤ p.1 ∧ p.1 < src.rect.dx ∧ 0 ≤ p.2 ∧ p.2 < src.rect.dy)
    · intro acc y hacc
      apply foldl_preserves
        (fun acc : GoRGBA Color × List (Int × Int) =>
          acc.1.rect = ⟨0, 0, max 1 nW, max 1 nH⟩ ∧
            ∀ p ∈ acc.2, 0 ≤ p.1 ∧ p.1 < src.rect.dx ∧ 0 ≤ p.2 ∧ p.2 < src.rect.dy)
      · intro acc2 x hacc2
        by_cases hguard :
            (x : Int) * scaleFactor < src.rect.dx ∧
              (y : Int) * scaleFactor < src.rect.dy
        · rw [if_pos hguard]
          refine ⟨?_, ?_⟩
          · simp only [GoRGBA.setPix]
            split
            · exact hacc2.1
            · exact hacc2.1
          · intro p hp
            simp only [List.mem_append, List.mem_singleton] at hp
            rcases hp with hp | hp
            · exact hacc2.2 p hp
            · subst hp
              refine ⟨mul_nonneg (Int.natCast_nonneg x) (by omega), hguard.1,
                mul_nonneg (Int.natCast_nonneg y) (by omega), hguard.2⟩
        · rw [if_neg hguard]
          exact hacc2
      · exact hacc
    · exact ⟨by rw [hmaxW, hmaxH], by intro p hp; simp at hp⟩
  refine ⟨key.1, ?_, ?_, ?_⟩
  · rw [key.1]; simp only [GoRect.dx]; omega
  · rw [key.1]; simp only [GoRect.dy]; omega
  · intro hminX hminY p hp
    have h := key.2 p hp
    simp only [GoRect.contains, GoRect.dx, GoRect.dy] at h ⊢
    omega

/-- Witness for `scaleImage_dims_and_reads`: scaling a 2-by-2 origin-anchored
image by factor 2 reads only the in-bounds coordinate (0, 0). -/
theorem scaleImage_dims_and_reads_witness :
    (scaleImage { rect := ⟨0, 0, 2, 2⟩, pix := fun _ _ => (), zero := () } 2).1.rect
      = ⟨0, 0, 1, 1⟩ :=
  (scaleImage_dims_and_reads
    { rect := ⟨0, 0, 2, 2⟩, pix := fun _ _ => (), zero := () } 2 (by decide)).1

/-! ### MJPEG reframer (clay_sdl3/camera.go and puregio/camera.go
`readRPiMJPEGStream`)

The reader accumulates chunks read from the process stdout into
`frameBuffer` and repeatedly scans it: `bytes.Index(data, []byte{0xFF,0xD8})`
finds the first start marker, `bytes.Index(data[startIdx+2:],
[]byte{0xFF,0xD9})` the first end marker after it; a complete frame
`data[startIdx:endIdx]` (end marker included) is sliced out and emitted and
only `data[endIdx:]` is retained.  Bytes are `Nat`s (0xFF = 255, 0xD8 = 216,
0xD9 = 217).  Emission means the frame is sliced out and offered to the
frame channel (the non-blocking send may additionally drop it downstream,
which is the capture-queue policy of C1, not part of reframing). -/

/-- `bytes.Index(l, []byte{a, b})`: the index of the first occurrence of the
two-byte pattern `a b` in `l`. -/
def findMarker (a b : Nat) : List Nat → Option Nat
  | x :: y :: rest =>
      if x = a ∧ y = b then some 0
      else (findMarker a b (y :: rest)).map (· + 1)
  | _ => none

theorem findMarker_nil (a b : Nat) : findMarker a b [] = none := rfl

theorem findMarker_single (a b x : Nat) : findMarker a b [x] = none := rfl

theorem findMarker_cons₂ (a b x y : Nat) (rest : List Nat) :
    findMarker a b (x :: y :: rest) =
      if x = a ∧ y = b then some 0
      else (findMarker a b (y :: rest)).map (· + 1) := rfl

/-- A found marker lies (with its two bytes) within the list. -/
theorem findMarker_le (a b : Nat) :
    ∀ (l : List Nat) (i : Nat), findMarker a b l = some i → i + 2 ≤ l.length := by
  intro l
  induction l with
  | nil => intro i h; simp [findMarker_nil] at h
  | cons x t ih =>
      intro i h
      match t with
      | [] => simp [findMarker_single] at h
      | y :: rest =>
          rw [findMarker_cons₂] at h
          split at h
          · simp only [Option.some.injEq] at h
            simp only [← h, List.length_cons]
            omega
          · simp only [Option.map_eq_some'] at h
            obtain ⟨j, hj, rfl⟩ := h
            have := ih j hj
            simp only [List.length_cons] at this ⊢
            omega

/-- The first occurrence in a list stays the first occurrence when the list
is extended on the right. -/
theorem findMarker_append_left (a b : Nat) :
    ∀ (l r : List Nat) (i : Nat), findMarker a b l = some i →
      findMarker a b (l ++ r) = some i := by
  intro l
  induction l with
  | nil => intro r i h; simp [findMarker_nil] at h
  | cons x t ih =>
      intro r i h
      match t with
      | [] => simp [findMarker_single] at h
      | y :: rest =>
          rw [findMarker_cons₂] at h
          rw [List.cons_append, List.cons_append, findMarker_cons₂]
          split at h
          · rw [if_pos (by assumption)]
            exact h
          · rw [if_neg (by assumption), ← List.cons_append]
            simp only [Option.map_eq_some'] at h
            obtain ⟨j, hj, rfl⟩ := h
            rw [ih r j hj]
            rfl

/-- If a marker pair `a b` (with `a ≠ b`) does not occur inside `body`, its
first occurrence in `body ++ a :: b :: rest` is exactly at the end of
`body`: no occurrence can span the boundary, because a spanning pair would
need its second byte to be both `a` and `b`. -/
theorem findMarker_boundary (a b : Nat) (hab : a ≠ b) :
    ∀ (body rest : List Nat), findMarker a b body = none →
      findMarker a b (body ++ a :: b :: rest) = some body.length := by
  intro body
  induction body with
  | nil =>
      intro rest _
      simp [findMarker_cons₂]
  | cons c t ih =>
      intro rest h
      match t with
      | [] =>
          rw [show (c :: ([] : List Nat)) ++ a :: b :: rest = c :: a :: b :: rest
            from rfl]
          rw [findMarker_cons₂, if_neg (by rintro ⟨h1, h2⟩; exact hab h2)]
          rw [findMarker_cons₂, if_pos ⟨rfl, rfl⟩]
          rfl
      | y :: rest₂ =>
          rw [findMarker_cons₂] at h
          split at h
          · exact absurd h (by simp)
          · rw [List.cons_append, List.cons_append, findMarker_cons₂,
              if_neg (by assumption), ← List.cons_append]
            have hmap : (findMarker a b (y :: rest₂)).map (· + 1) = none := h
            have hnone : findMarker a b (y :: rest₂) = none := by
              cases hfm : findMarker a b (y :: rest₂) with
              | none => rfl
              | some v => rw [hfm] at hmap; simp at hmap
            rw [ih rest hnone]
            rfl

/-- The scanning loop of `readRPiMJPEGStream`: repeatedly find the first
start marker, the first end marker after it, slice the frame out (markers
included) and keep only the bytes after the frame; stop when either marker
is missing, keeping the whole buffer for the next read. -/
def extractFrames (data : List Nat) : List (List Nat) × List Nat :=
  match hs : findMarker 255 216 data with
  | none => ([], data)
  | some s =>
      match findMarker 255 217 (data.drop (s + 2)) with
      | none => ([], data)
      | some e =>
          let endIdx := s + 2 + e + 2
          let frame := (data.take endIdx).drop s
          let rest := extractFrames (data.drop endIdx)
          (frame :: rest.1, rest.2)
termination_by data.length
decreasing_by
  have h1 := findMarker_le 255 216 data s hs
  simp only [List.length_drop]
  omega

theorem extractFrames_no_start (data : List Nat)
    (h : findMarker 255 216 data = none) : extractFrames data = ([], data) := by
  rw [extractFrames.eq_def]
  split
  · rfl
  · rename_i s hs
    rw [h] at hs
    exact absurd hs (by simp)

theorem extractFrames_no_end (data : List Nat) (s : Nat)
    (hs : findMarker 255 216 data = some s)
    (he : findMarker 255 217 (data.drop (s + 2)) = none) :
    extractFrames data = ([], data) := by
  rw [extractFrames.eq_def]
  split
  · rfl
  · rename_i s₂ hs₂
    rw [hs] at hs₂
    simp only [Option.some.injEq] at hs₂
    subst hs₂
    rw [he]

theorem extractFrames_step (data : List Nat) (s e : Nat)
    (hs : findMarker 255 216 data = some s)
    (he : findMarker 255 217 (data.drop (s + 2)) = some e) :
    extractFrames data =
      (((data.take (s + 2 + e + 2)).drop s) ::
          (extractFrames (data.drop (s + 2 + e + 2))).1,
        (extractFrames (data.drop (s + 2 + e + 2))).2) := by
  rw [extractFrames.eq_def]
  split
  · rename_i hnone
    rw [hs] at hnone
    exact absurd hnone (by simp)
  · rename_i s₂ hs₂
    rw [hs] at hs₂
    simp only [Option.some.injEq] at hs₂
    subst hs₂
    rw [he]

/-- A complete JPEG frame as the spec's reframer claim understands it:
start marker, body, end marker, where the delimiting end marker is the first
end-marker pair after the start (the body contains no 0xFFD9 pair). -/
def WfJpegFrame (F : List Nat) : Prop :=
  ∃ body, F = 255 :: 216 :: (body ++ [255, 217]) ∧
    findMarker 255 217 body = none

/-- Scanning a buffer that begins with a complete frame slices out exactly
that frame, byte for byte, and continues on the rest of the buffer. -/
theorem extractFrames_frame (body rest : List Nat)
    (hbody : findMarker 255 217 body = none) :
    extractFrames ((255 :: 216 :: (body ++ [255, 217])) ++ rest) =
      ((255 :: 216 :: (body ++ [255, 217])) :: (extractFrames rest).1,
        (extractFrames rest).2) := by
  have hs : findMarker 255 216 ((255 :: 216 :: (body ++ [255, 217])) ++ rest)
      = some 0 := by
    rw [List.cons_append, List.cons_append, findMarker_cons₂, if_pos ⟨rfl, rfl⟩]
  have hdrop2 : ((255 :: 216 :: (body ++ [255, 217])) ++ rest).drop (0 + 2)
      = body ++ 255 :: 217 :: rest := by
    simp [List.cons_append, List.append_assoc]
  have he : findMarker 255 217
      (((255 :: 216 :: (body ++ [255, 217])) ++ rest).drop (0 + 2))
      = some body.length := by
    rw [hdrop2]
    exact findMarker_boundary 255 217 (by decide) body rest hbody
  rw [extractFrames_step _ 0 body.length hs he]
  have hlen : 0 + 2 + body.length + 2
      = (255 :: 216 :: (body ++ [255, 217])).length := by
    simp
    omega
  rw [hlen, List.take_left, List.drop_left, List.drop_zero]

/-- Scanning the concatenation of complete frames yields exactly those
frames, in order, with an empty leftover buffer. -/
theorem extractFrames_flatten (frames : List (List Nat))
    (h : ∀ F ∈ frames, WfJpegFrame F) :
    extractFrames frames.flatten = (frames, []) := by
  induction frames with
  | nil =>
      simpa using extractFrames_no_start [] rfl
  | cons F fs ih =>
      obtain ⟨body, hF, hbody⟩ := h F (by simp)
      rw [List.flatten_cons, hF, extractFrames_frame body fs.flatten hbody,
        ih (fun G hG => h G (by simp [hG])), ← hF]

/-- The buffer the scanner leaves behind contains no complete frame: scanning
it again extracts nothing and leaves it unchanged. -/
theorem extractFrames_idem :
    ∀ (n : Nat) (d : List Nat), d.length ≤ n →
      extractFrames (extractFrames d).2 = ([], (extractFrames d).2) := by
  intro n
  induction n with
  | zero =>
      intro d hd
      have hdnil : d = [] := List.length_eq_zero.mp (Nat.le_zero.mp hd)
      subst hdnil
      rw [extractFrames_no_start [] rfl]
      exact extractFrames_no_start [] rfl
  | succ n ih =>
      intro d hd
      cases hs : findMarker 255 216 d with
      | none =>
          rw [extractFrames_no_start d hs]
          exact extractFrames_no_start d hs
      | some s =>
          cases he : findMarker 255 217 (d.drop (s + 2)) with
          | none =>
              rw [extractFrames_no_end d s hs he]
              exact extractFrames_no_end d s hs he
          | some e =>
              rw [extractFrames_step d s e hs he]
              have hsb := findMarker_le 255 216 d s hs
              have hlt : (d.drop (s + 2 + e + 2)).length ≤ n := by
                rw [List.length_drop]
                omega
              exact ih (d.drop (s + 2 + e + 2)) hlt

/-- Incrementality of the scanner: extending the buffer on the right first
yields all frames extractable from the original buffer (byte-identically) and
then continues from the original leftover plus the extension.  This is how
arbitrary chunking reduces to scanning the whole stream. -/
theorem extractFrames_append :
    ∀ (n : Nat) (b c : List Nat), b.length ≤ n →
      extractFrames (b ++ c) =
        ((extractFrames b).1 ++ (extractFrames ((extractFrames b).2 ++ c)).1,
          (extractFrames ((extractFrames b).2 ++ c)).2) := by
  intro n
  induction n with
  | zero =>
      intro b c hb
      have hbnil : b = [] := List.length_eq_zero.mp (Nat.le_zero.mp hb)
      subst hbnil
      rw [extractFrames_no_start [] rfl]
      simp
  | succ n ih =>
      intro b c hb
      cases hs : findMarker 255 216 b with
      | none =>
          rw [extractFrames_no_start b hs]
          simp
      | some s =>
          cases he : findMarker 255 217 (b.drop (s + 2)) with
          | none =>
              rw [extractFrames_no_end b s hs he]
              simp
          | some e =>
              have hsb := findMarker_le 255 216 b s hs
              have heb := findMarker_le 255 217 (b.drop (s + 2)) e he
              rw [List.length_drop] at heb
              have hend : s + 2 + e + 2 ≤ b.length := by omega
              have hs₂ : findMarker 255 216 (b ++ c) = some s :=
                findMarker_append_left 255 216 b c s hs
              have hdrop : (b ++ c).drop (s + 2) = b.drop (s + 2) ++ c := by
                rw [List.drop_append_eq_append_drop,
                  show s + 2 - b.length = 0 by omega, List.drop_zero]
              have he₂ : findMarker 255 217 ((b ++ c).drop (s + 2)) = some e := by
                rw [hdrop]
                exact findMarker_append_left 255 217 (b.drop (s + 2)) c e he
              rw [extractFrames_step (b ++ c) s e hs₂ he₂,
                extractFrames_step b s e hs he]
              have htake : (b ++ c).take (s + 2 + e + 2) = b.take (s + 2 + e + 2) := by
                rw [List.take_append_eq_append_take,
                  show s + 2 + e + 2 - b.length = 0 by omega, List.take_zero,
                  List.append_nil]
              have hdropEnd : (b ++ c).drop (s + 2 + e + 2)
                  = b.drop (s + 2 + e + 2) ++ c := by
                rw [List.drop_append_eq_append_drop,
                  show s + 2 + e + 2 - b.length = 0 by omega, List.drop_zero]
              have hlt : (b.drop (s + 2 + e + 2)).length ≤ n := by
                rw [List.length_drop]
                omega
              rw [htake, hdropEnd, ih (b.drop (s + 2 + e + 2)) c hlt]
              simp [List.cons_append]

/-- The reader loop of `readRPiMJPEGStream` over the finite sequence of
chunks delivered by `reader.Read`: each chunk is appended to the carried
buffer, complete frames are sliced out and emitted, and the unconsumed
remainder is carried over to the next read. -/
def readRPiMJPEGStream (chunks : List (List Nat)) :
    List (List Nat) × List Nat :=
  chunks.foldl
    (fun st chunk =>
      let r := extractFrames (st.2 ++ chunk)
      (st.1 ++ r.1, r.2))
    ([], [])

/-- Fold invariant for the reader loop: with a drained carry buffer, feeding
the chunks emits exactly the frames the scanner finds in the carry buffer
followed by all chunk bytes. -/
theorem readRPiMJPEGStream_fold :
    ∀ (chunks : List (List Nat)) (acc : List (List Nat)) (buf : List Nat),
      extractFrames buf = ([], buf) →
      chunks.foldl
          (fun st chunk =>
            let r := extractFrames (st.2 ++ chunk)
            (st.1 ++ r.1, r.2))
          (acc, buf) =
        (acc ++ (extractFrames (buf ++ chunks.flatten)).1,
          (extractFrames (buf ++ chunks.flatten)).2) := by
  intro chunks
  induction chunks with
  | nil =>
      intro acc buf hbuf
      simp [hbuf]
  | cons ch chs ih =>
      intro acc buf hbuf
      rw [List.foldl_cons]
      have hdrained := extractFrames_idem (buf ++ ch).length (buf ++ ch) le_rfl
      rw [ih (acc ++ (extractFrames (buf ++ ch)).1)
        (extractFrames (buf ++ ch)).2 hdrained]
      have happ := extractFrames_append (buf ++ ch).length (buf ++ ch)
        chs.flatten le_rfl
      rw [List.flatten_cons, ← List.append_assoc, happ, List.append_assoc]

/-- C2, confirmed.  For every byte stream that is the concatenation of M
complete JPEG frames (each one start marker, a body free of the end-marker
pair, then the end marker) and for every way of splitting that stream into
read chunks — including splits in the middle of a marker — the MJPEG
reframer emits exactly the M original frames, in order, each byte-identical
to the original, and ends with an empty carry buffer. -/
theorem mjpeg_reframer_exact (frames chunks : List (List Nat))
    (hwf : ∀ F ∈ frames, WfJpegFrame F)
    (hsplit : chunks.flatten = frames.flatten) :
    readRPiMJPEGStream chunks = (frames, []) := by
  unfold readRPiMJPEGStream
  rw [readRPiMJPEGStream_fold chunks [] [] (extractFrames_no_start [] rfl)]
  simp only [List.nil_append]
  rw [hsplit, extractFrames_flatten frames hwf]

/-- Witness for `mjpeg_reframer_exact`: one frame split mid-marker across
two chunks. -/
theorem mjpeg_reframer_exact_witness :
    readRPiMJPEGStream [[255, 216, 7, 255], [217]]
      = ([[255, 216, 7, 255, 217]], []) := by
  refine mjpeg_reframer_exact [[255, 216, 7, 255, 217]]
    [[255, 216, 7, 255], [217]] ?_ (by decide)
  intro F hF
  simp only [List.mem_singleton] at hF
  exact ⟨[7], by rw [hF]; rfl, rfl⟩

/-! ### External-process supervision (puregio/camera.go
`processRaspberryPiFrames`, clay_sdl3/camera.go `captureRaspberryPiFrames`)

The supervision loop is embedded as a trace semantics over abstract inputs.
While the source is active (`camera.Active` held true, the claim's premise),
each outer iteration spawns `rpicam-vid`; pipe or start failure logs and
sleeps one second before retrying.  Once started, the inner `select` loop
reacts to events: a received frame is handled; a closed frame channel ends
the inner loop; the 5-second `time.After` watchdog checks whether the
process is still alive (`Signal 0`) and only ends the inner loop when the
process has died — an alive process that merely produces no frames is left
running.  After the inner loop ends, the process is killed and reaped,
stdout closed, and the loop restarts after a one-second pause. -/

inductive RpiEvent
  | frame (f : Nat)
  | chanClosed
  | watchdog (alive : Bool)
deriving Repr, DecidableEq

inductive RpiAction
  | spawnOk
  | handleFrame
  | checkAlive
  | kill
  | waitProc
  | sleep1
deriving Repr, DecidableEq

/-- The inner `for processLoop && camera.Active` select loop of
`processRaspberryPiFrames`, over a finite observed event sequence: returns
the actions performed and whether the loop exited (via a closed channel or a
watchdog check on a dead process) before the observation ended. -/
def innerLoop : List RpiEvent → List RpiAction × Bool
  | [] => ([], false)
  | .frame _ :: es => (.handleFrame :: (innerLoop es).1, (innerLoop es).2)
  | .chanClosed :: _ => ([], true)
  | .watchdog alive :: es =>
      if alive then (.checkAlive :: (innerLoop es).1, (innerLoop es).2)
      else ([.checkAlive], true)

/-- Outcome of one spawn attempt of `rpicam-vid`, with the events observed
while it streamed. -/
inductive SpawnOutcome
  | pipeFail
  | startFail
  | started (events : List RpiEvent)

/-- The outer restart loop of `processRaspberryPiFrames` with the source
active, as a trace of actions: failures sleep one second and retry; a
started process runs the inner loop, and if that loop exited, the process is
killed and reaped and the loop restarts after a one-second pause. -/
def processRaspberryPiFrames : List SpawnOutcome → List RpiAction
  | [] => []
  | .pipeFail :: rest => .sleep1 :: processRaspberryPiFrames rest
  | .startFail :: rest => .sleep1 :: processRaspberryPiFrames rest
  | .started evs :: rest =>
      let r := innerLoop evs
      .spawnOk ::
        (r.1 ++
          if r.2 then
            .kill :: .waitProc :: .sleep1 :: processRaspberryPiFrames rest
          else [])

/-- Events that do not end the inner loop: received frames and watchdog
checks that find the process alive. -/
def NonExitEvent (e : RpiEvent) : Prop :=
  e ≠ .chanClosed ∧ e ≠ .watchdog false

instance (e : RpiEvent) : Decidable (NonExitEvent e) := by
  unfold NonExitEvent; infer_instance

/-- The inner loop processes non-exiting events transparently and continues
into whatever follows them. -/
theorem innerLoop_append (evs tail : List RpiEvent)
    (h : ∀ e ∈ evs, NonExitEvent e) :
    innerLoop (evs ++ tail) =
      ((innerLoop evs).1 ++ (innerLoop tail).1, (innerLoop tail).2) := by
  induction evs with
  | nil => simp [innerLoop]
  | cons e es ih =>
      have he := h e (by simp)
      have hrest : ∀ x ∈ es, NonExitEvent x := fun x hx => h x (by simp [hx])
      cases e with
      | frame f =>
          rw [List.cons_append]
          simp only [innerLoop]
          rw [ih hrest]
          simp
      | chanClosed => exact absurd rfl he.1
      | watchdog alive =>
          cases alive with
          | false => exact absurd rfl he.2
          | true =>
              rw [List.cons_append]
              simp only [innerLoop, if_true]
              rw [ih hrest]
              simp

/-- The inner loop never spawns or sleeps: those actions belong to the outer
restart loop only. -/
theorem innerLoop_count_eq_zero (evs : List RpiEvent) :
    ((innerLoop evs).1.count .spawnOk = 0) ∧
      ((innerLoop evs).1.count .sleep1 = 0) := by
  induction evs with
  | nil => simp [innerLoop]
  | cons e es ih =>
      cases e with
      | frame f => simpa [innerLoop, List.count_cons] using ih
      | chanClosed => simp [innerLoop]
      | watchdog alive =>
          cases alive with
          | false => simp [innerLoop]
          | true => simpa [innerLoop, List.count_cons] using ih

/-- Composing prefix-count bounds across an append: if every prefix of `A`
has at most one more spawn than sleeps, `A` as a whole has no more spawns
than sleeps, and every prefix of `B` has at most one more spawn than sleeps,
then so does every prefix of `A ++ B`. -/
theorem spawn_bound_append (A B : List RpiAction)
    (hA : ∀ n, (A.take n).count .spawnOk ≤ (A.take n).count .sleep1 + 1)
    (hA₂ : A.count .spawnOk ≤ A.count .sleep1)
    (hB : ∀ n, (B.take n).count .spawnOk ≤ (B.take n).count .sleep1 + 1) :
    ∀ n, ((A ++ B).take n).count .spawnOk
      ≤ ((A ++ B).take n).count .sleep1 + 1 := by
  intro n
  rw [List.take_append_eq_append_take, List.count_append, List.count_append]
  rcases le_or_lt n A.length with hn | hn
  · rw [show n - A.length = 0 by omega, List.take_zero, List.count_nil,
      List.count_nil]
    have := hA n
    omega
  · rw [List.take_of_length_le (by omega)]
    have := hB (n - A.length)
    omega

/-- A block whose total spawn count is at most one satisfies the prefix
bound trivially. -/
theorem spawn_bound_of_count_le_one (A : List RpiAction)
    (hA : A.count .spawnOk ≤ 1) :
    ∀ n, (A.take n).count .spawnOk ≤ (A.take n).count .sleep1 + 1 := by
  intro n
  have := (List.take_sublist n A).count_le .spawnOk
  omega

/-- C6, counterexample.  A watchdog timeout (no frame for 5 seconds) that
finds the process still alive does not kill or restart it: the supervision
trace for that run contains no kill and no further spawn, contradicting the
claim that producing no frame within the watchdog interval triggers a
kill-and-restart. -/
theorem rpi_watchdog_alive_no_restart_counterexample :
    processRaspberryPiFrames [.started [.watchdog true, .frame 0]]
        = [.spawnOk, .checkAlive, .handleFrame] ∧
      RpiAction.kill ∉
        processRaspberryPiFrames [.started [.watchdog true, .frame 0]] := by
  exact ⟨rfl, by decide⟩

/-- C6, amended.  While a source is active: (a) when the external process
has died — detected by the 5-second watchdog after the event sequence `evs`
of received frames and alive checks — the adapter kills and reaps the
process and restarts only after a one-second pause (an alive process that
merely produces no frames is not restarted, per the counterexample); and
(b) in every supervision trace, every prefix contains at most one more
spawn than one-second pauses, so successive restarts are always separated
by a pause rather than retried immediately. -/
theorem rpi_restart_behavior :
    (∀ (evs : List RpiEvent) (rest : List SpawnOutcome),
        (∀ e ∈ evs, NonExitEvent e) →
        processRaspberryPiFrames (.started (evs ++ [.watchdog false]) :: rest) =
          .spawnOk :: ((innerLoop evs).1 ++
            .checkAlive :: .kill :: .waitProc :: .sleep1 ::
              processRaspberryPiFrames rest)) ∧
    (∀ (iters : List SpawnOutcome) (n : Nat),
        ((processRaspberryPiFrames iters).take n).count .spawnOk
          ≤ ((processRaspberryPiFrames iters).take n).count .sleep1 + 1) := by
  constructor
  · intro evs rest h
    simp only [processRaspberryPiFrames]
    rw [innerLoop_append evs [.watchdog false] h]
    simp [innerLoop, List.append_assoc]
  · intro iters
    induction iters with
    | nil =>
        intro n
        simp [processRaspberryPiFrames]
    | cons it rest ih =>
        cases it with
        | pipeFail =>
            have : processRaspberryPiFrames (.pipeFail :: rest)
                = [.sleep1] ++ processRaspberryPiFrames rest := rfl
            rw [this]
            refine spawn_bound_append _ _ ?_ (by simp) ih
            exact spawn_bound_of_count_le_one _ (by simp)
        | startFail =>
            have : processRaspberryPiFrames (.startFail :: rest)
                = [.sleep1] ++ processRaspberryPiFrames rest := rfl
            rw [this]
            refine spawn_bound_append _ _ ?_ (by simp) ih
            exact spawn_bound_of_count_le_one _ (by simp)
        | started evs =>
            have hin := innerLoop_count_eq_zero evs
            cases hexit : (innerLoop evs).2 with
            | false =>
                have : processRaspberryPiFrames (.started evs :: rest)
                    = .spawnOk :: ((innerLoop evs).1 ++ []) := by
                  simp [processRaspberryPiFrames, hexit]
                rw [this]
                apply spawn_bound_of_count_le_one
                simp [List.count_cons, hin.1]
            | true =>
                have hsplit : processRaspberryPiFrames (.started evs :: rest)
                    = (.spawnOk :: ((innerLoop evs).1 ++
                        [.kill, .waitProc, .sleep1])) ++
                      processRaspberryPiFrames rest := by
                  simp [processRaspberryPiFrames, hexit, List.append_assoc]
                rw [hsplit]
                refine spawn_bound_append _ _ ?_ ?_ ih
                · apply spawn_bound_of_count_le_one
                  simp [List.count_cons, List.count_append, hin.1]
                · simp [List.count_cons, List.count_append, hin.1, hin.2]

/-- Witness for `rpi_restart_behavior`: a dead-process detection after one
received frame produces kill, reap, pause, and the next iteration's spawn
follows the pause. -/
theorem rpi_restart_behavior_witness :
    processRaspberryPiFrames
        [.started ([.frame 0] ++ [.watchdog false]), .started []] =
      [.spawnOk, .handleFrame, .checkAlive, .kill, .waitProc, .sleep1,
        .spawnOk] := by
  rw [rpi_restart_behavior.1 [.frame 0] [.started []] (by decide)]
  rfl

/-! ### Text sanitisation (src/unnamed/part_003 `sanitizeText`)

Go strings are byte strings; `strings.Map` iterates the UTF-8 decoding of
the bytes (each invalid byte decoding as U+FFFD with width 1), applies the
mapping to each rune — here dropping runes below 32 and rune 127 — and
re-encodes the kept runes.  `len` and the `[:128]` slice count bytes.  The
model is therefore byte-level: `decodeRune` follows `utf8.DecodeRuneInString`
(including the disallowed surrogate and overlong ranges), `encodeRune`
follows `utf8.AppendRune` (invalid scalars encode as U+FFFD). -/

/-- `utf8.DecodeRuneInString`: first rune and its byte width; invalid or
truncated encodings yield (U+FFFD = 65533, 1). -/
def decodeRune : List Nat → Nat × Nat
  | [] => (65533, 0)
  | b0 :: rest =>
      if b0 < 128 then (b0, 1)
      else if 194 ≤ b0 ∧ b0 ≤ 223 then
        match rest with
        | b1 :: _ =>
            if 128 ≤ b1 ∧ b1 ≤ 191 then ((b0 - 192) * 64 + (b1 - 128), 2)
            else (65533, 1)
        | [] => (65533, 1)
      else if 224 ≤ b0 ∧ b0 ≤ 239 then
        match rest with
        | b1 :: b2 :: _ =>
            if (if b0 = 224 then 160 else 128) ≤ b1 ∧
                b1 ≤ (if b0 = 237 then 159 else 191) ∧
                128 ≤ b2 ∧ b2 ≤ 191 then
              ((b0 - 224) * 4096 + (b1 - 128) * 64 + (b2 - 128), 3)
            else (65533, 1)
        | _ => (65533, 1)
      else if 240 ≤ b0 ∧ b0 ≤ 244 then
        match rest with
        | b1 :: b2 :: b3 :: _ =>
            if (if b0 = 240 then 144 else 128) ≤ b1 ∧
                b1 ≤ (if b0 = 244 then 143 else 191) ∧
                128 ≤ b2 ∧ b2 ≤ 191 ∧ 128 ≤ b3 ∧ b3 ≤ 191 then
              ((b0 - 240) * 262144 + (b1 - 128) * 4096 + (b2 - 128) * 64 +
                (b3 - 128), 4)
            else (65533, 1)
        | _ => (65533, 1)
      else (65533, 1)

/-- Decoding a nonempty byte string always consumes at least one byte. -/
theorem decodeRune_size_pos (b : Nat) (rest : List Nat) :
    1 ≤ (decodeRune (b :: rest)).2 := by
  unfold decodeRune
  repeat' split
  all_goals simp_all

/-- The rune-by-rune decoding of a byte string, as `for _, c := range s`
iterates it. -/
def utf8Decode : List Nat → List Nat
  | [] => []
  | b :: rest =>
      (decodeRune (b :: rest)).1 ::
        utf8Decode ((b :: rest).drop (decodeRune (b :: rest)).2)
termination_by s => s.length
decreasing_by
  simp only [List.length_drop, List.length_cons]
  exact Nat.sub_lt (Nat.succ_pos _) (decodeRune_size_pos _ _)

theorem utf8Decode_nil : utf8Decode [] = [] := by
  simp [utf8Decode]

theorem utf8Decode_cons (b : Nat) (rest : List Nat) :
    utf8Decode (b :: rest) =
      (decodeRune (b :: rest)).1 ::
        utf8Decode ((b :: rest).drop (decodeRune (b :: rest)).2) := by
  rw [utf8Decode]

/-- `utf8.AppendRune`: UTF-8 bytes of one rune; surrogates and out-of-range
values encode as U+FFFD. -/
def encodeRune (r : Nat) : List Nat :=
  if r < 128 then [r]
  else if r < 2048 then [192 + r / 64, 128 + r % 64]
  else if (55296 ≤ r ∧ r < 57344) ∨ 1114111 < r then [239, 191, 189]
  else if r < 65536 then
    [224 + r / 4096, 128 + (r / 64) % 64, 128 + r % 64]
  else
    [240 + r / 262144, 128 + (r / 4096) % 64, 128 + (r / 64) % 64,
      128 + r % 64]

/-- Encoding a rune sequence back to bytes, as the `strings.Builder` in
`strings.Map` does. -/
def utf8Encode (rs : List Nat) : List Nat := (rs.map encodeRune).flatten

theorem utf8Encode_nil : utf8Encode [] = [] := rfl

theorem utf8Encode_cons (r : Nat) (rs : List Nat) :
    utf8Encode (r :: rs) = encodeRune r ++ utf8Encode rs := by
  simp [utf8Encode]

/-- The rune predicate of the `strings.Map` callback in `sanitizeText`:
runes below 32 and rune 127 are dropped. -/
def isCtlRune (r : Nat) : Bool := decide (r < 32) || r == 127

/-- `strings.Map` with the drop-control callback of `sanitizeText`: decode,
drop control runes, re-encode. -/
def stringsMapDropCtl (s : List Nat) : List Nat :=
  utf8Encode ((utf8Decode s).filter (fun r => !isCtlRune r))

/-- The bytes of "No text". -/
def noText : List Nat := [78, 111, 32, 116, 101, 120, 116]

/-- The bytes of "...". -/
def dots : List Nat := [46, 46, 46]

/-- `sanitizeText` from src/unnamed/part_003: empty input or an empty
cleaned string yields "No text"; a cleaned string longer than 128 bytes is
truncated to its first 128 bytes with a "..." suffix. -/
def sanitizeText (text : List Nat) : List Nat :=
  if text = [] then noText
  else if stringsMapDropCtl text = [] then noText
  else if 128 < (stringsMapDropCtl text).length then
    (stringsMapDropCtl text).take 128 ++ dots
  else stringsMapDropCtl text

/-- A Unicode scalar value: in range and not a surrogate. -/
def ValidScalar (r : Nat) : Prop :=
  r < 1114112 ∧ ¬(55296 ≤ r ∧ r < 57344)

/-- Byte strings that are valid UTF-8: concatenations of encodings of
Unicode scalar values. -/
inductive ValidUTF8 : List Nat → Prop
  | nil : ValidUTF8 []
  | cons (r : Nat) (rest : List Nat) : ValidScalar r → ValidUTF8 rest →
      ValidUTF8 (encodeRune r ++ rest)

/-- Decoding the encoding of a scalar value recovers the scalar and consumes
exactly its bytes, whatever follows. -/
theorem decodeRune_encodeRune (r : Nat) (rest : List Nat) (h : ValidScalar r) :
    decodeRune (encodeRune r ++ rest) = (r, (encodeRune r).length) := by
  obtain ⟨hmax, hsur⟩ := h
  by_cases h1 : r < 128
  · have hE : encodeRune r = [r] := by
      unfold encodeRune
      rw [if_pos h1]
    rw [hE, List.singleton_append]
    simp only [decodeRune]
    rw [if_pos h1]
    simp [hE]
  · by_cases h2 : r < 2048
    · have hE : encodeRune r = [192 + r / 64, 128 + r % 64] := by
        unfold encodeRune
        rw [if_neg h1, if_pos h2]
      rw [hE]
      simp only [List.cons_append, decodeRune]
      rw [if_neg (by omega), if_pos (show 194 ≤ 192 + r / 64 ∧ 192 + r / 64 ≤ 223
        by omega), if_pos (show 128 ≤ 128 + r % 64 ∧ 128 + r % 64 ≤ 191 by omega)]
      simp only [Prod.mk.injEq]
      exact ⟨by omega, rfl⟩
    · have hnot : ¬((55296 ≤ r ∧ r < 57344) ∨ 1114111 < r) := by
        rintro (hs | hb)
        · exact hsur hs
        · omega
      by_cases h3 : r < 65536
      · have hE : encodeRune r =
            [224 + r / 4096, 128 + (r / 64) % 64, 128 + r % 64] := by
          unfold encodeRune
          rw [if_neg h1, if_neg h2, if_neg hnot, if_pos h3]
        rw [hE]
        simp only [List.cons_append, decodeRune]
        rw [if_neg (by omega), if_neg (by omega),
          if_pos (show 224 ≤ 224 + r / 4096 ∧ 224 + r / 4096 ≤ 239 by omega),
          if_pos (by refine ⟨?_, ?_, by omega, by omega⟩ <;> split_ifs <;> omega)]
        simp only [Prod.mk.injEq]
        exact ⟨by omega, rfl⟩
      · have hE : encodeRune r =
            [240 + r / 262144, 128 + (r / 4096) % 64, 128 + (r / 64) % 64,
              128 + r % 64] := by
          unfold encodeRune
          rw [if_neg h1, if_neg h2, if_neg hnot, if_neg h3]
        rw [hE]
        simp only [List.cons_append, decodeRune]
        rw [if_neg (by omega), if_neg (by omega), if_neg (by omega),
          if_pos (show 240 ≤ 240 + r / 262144 ∧ 240 + r / 262144 ≤ 244 by omega),
          if_pos (by refine ⟨?_, ?_, by omega, by omega, by omega, by omega⟩ <;>
            split_ifs <;> omega)]
        simp only [Prod.mk.injEq]
        exact ⟨by omega, rfl⟩

theorem encodeRune_ne_nil (r : Nat) : encodeRune r ≠ [] := by
  unfold encodeRune
  split_ifs <;> simp

/-- Decoding a valid string is one rune plus the decoding of the rest. -/
theorem utf8Decode_encodeRune_cons (r : Nat) (rest : List Nat)
    (h : ValidScalar r) :
    utf8Decode (encodeRune r ++ rest) = r :: utf8Decode rest := by
  obtain ⟨b0, tl, htl⟩ : ∃ b0 tl, encodeRune r ++ rest = b0 :: tl := by
    cases hE : encodeRune r with
    | nil => exact absurd hE (encodeRune_ne_nil r)
    | cons x xs => exact ⟨x, xs ++ rest, by simp [hE]⟩
  rw [htl, utf8Decode_cons, ← htl, decodeRune_encodeRune r rest h]
  rw [List.drop_left]

/-- Bytes of the encoding of a non-control rune are themselves non-control:
a single-byte encoding is the rune itself, and every byte of a multi-byte
encoding is at least 128. -/
theorem encodeRune_not_ctl (r : Nat) (hr : isCtlRune r = false) :
    ∀ b ∈ encodeRune r, isCtlRune b = false := by
  intro b hb
  unfold isCtlRune at hr ⊢
  simp only [Bool.or_eq_false_iff, decide_eq_false_iff_not,
    beq_eq_false_iff_ne, ne_eq] at hr ⊢
  unfold encodeRune at hb
  split_ifs at hb <;> simp only [List.mem_cons, List.mem_singleton,
    List.not_mem_nil, or_false] at hb
  · omega
  · rcases hb with hb | hb <;> omega
  · rcases hb with hb | hb | hb <;> omega
  · rcases hb with hb | hb | hb <;> omega
  · rcases hb with hb | hb | hb | hb <;> omega

/-- A control rune is below 128, so its encoding is the single byte itself. -/
theorem encodeRune_ctl (r : Nat) (hr : isCtlRune r = true) :
    encodeRune r = [r] := by
  unfold isCtlRune at hr
  simp only [Bool.or_eq_true, decide_eq_true_eq, beq_iff_eq] at hr
  unfold encodeRune
  rw [if_pos (by omega)]

/-- On valid UTF-8, `strings.Map` with the drop-control callback acts as a
plain byte filter removing the control bytes. -/
theorem stringsMap_valid (s : List Nat) (h : ValidUTF8 s) :
    stringsMapDropCtl s = s.filter (fun b => !isCtlRune b) := by
  induction h with
  | nil =>
      unfold stringsMapDropCtl
      rw [utf8Decode_nil]
      rfl
  | cons r rest hr hrest ih =>
      unfold stringsMapDropCtl at ih ⊢
      rw [utf8Decode_encodeRune_cons r rest hr, List.filter_cons,
        List.filter_append]
      cases hctl : isCtlRune r with
      | true =>
          rw [encodeRune_ctl r hctl]
          simp only [hctl, Bool.not_true, if_neg (by simp : ¬(false = true))]
          rw [ih]
          simp [hctl]
      | false =>
          simp only [hctl, Bool.not_false, if_true]
          rw [utf8Encode_cons, ih]
          have hfe : List.filter (fun b => !isCtlRune b) (encodeRune r)
              = encodeRune r :=
            List.filter_eq_self.mpr
              (fun b hb => by simp [encodeRune_not_ctl r hctl b hb])
          rw [hfe]

/-- A string of ASCII bytes is valid UTF-8. -/
theorem validUTF8_ascii : ∀ (l : List Nat), (∀ b ∈ l, b < 128) → ValidUTF8 l := by
  intro l
  induction l with
  | nil => intro _; exact ValidUTF8.nil
  | cons b t ih =>
      intro h
      have hb := h b (by simp)
      have hE : encodeRune b ++ t = b :: t := by
        unfold encodeRune
        rw [if_pos hb]
        rfl
      rw [← hE]
      exact ValidUTF8.cons b t ⟨by omega, by omega⟩
        (ih fun x hx => h x (by simp [hx]))

/-- C9, counterexample.  The input consisting of the single byte 128 is not
empty and contains no control character (neither as a byte nor as its
decoded character U+FFFD), so the claim requires the result to be the input
with control characters removed — the input itself.  `strings.Map` instead
re-encodes the invalid byte as the U+FFFD replacement sequence. -/
theorem sanitizeText_invalid_utf8_counterexample :
    sanitizeText [128] = [239, 191, 189] ∧
      sanitizeText [128] ≠ [128].filter (fun b => !isCtlRune b) := by
  have hd : utf8Decode [128] = [65533] := by
    rw [utf8Decode_cons, show decodeRune [128] = (65533, 1) from rfl]
    simp [utf8Decode_nil]
  have hm : stringsMapDropCtl [128] = [239, 191, 189] := by
    unfold stringsMapDropCtl
    rw [hd]
    rfl
  have hres : sanitizeText [128] = [239, 191, 189] := by
    unfold sanitizeText
    rw [hm]
    simp
  refine ⟨hres, ?_⟩
  rw [hres]
  decide

/-- C9, amended.  For every input byte string, `sanitizeText` returns a
non-empty string; and for every input that is valid UTF-8, an empty input or
one whose characters are all control characters (code below 32 or equal to
127) yields "No text", and otherwise the result is the input with those
characters removed, truncated to its first 128 bytes with a "..." suffix
when its byte length exceeds 128.  (Invalid UTF-8 input is re-encoded with
U+FFFD replacement characters, per the counterexample.) -/
theorem sanitizeText_spec (s : List Nat) :
    sanitizeText s ≠ [] ∧
      (ValidUTF8 s →
        sanitizeText s =
          if s.filter (fun b => !isCtlRune b) = [] then noText
          else if 128 < (s.filter (fun b => !isCtlRune b)).length then
            (s.filter (fun b => !isCtlRune b)).take 128 ++ dots
          else s.filter (fun b => !isCtlRune b)) := by
  constructor
  · unfold sanitizeText
    split_ifs with h1 h2 h3
    · simp [noText]
    · simp [noText]
    · simp [dots]
    · exact h2
  · intro hv
    unfold sanitizeText
    rw [stringsMap_valid s hv]
    by_cases hs : s = []
    · subst hs
      simp
    · rw [if_neg hs]

/-- Witness for `sanitizeText_spec`: the ASCII input "H\ni" keeps its two
printable bytes and drops the newline. -/
theorem sanitizeText_spec_witness :
    sanitizeText [72, 10, 105] = [72, 105] := by
  have h := (sanitizeText_spec [72, 10, 105]).2
    (validUTF8_ascii [72, 10, 105] (by decide))
  rw [h]
  decide

/-! ### Device discovery (clay_sdl3/camera.go and puregio/camera.go
`findCameraDevices`)

Discovery globs `/dev/video*` (modelled as the probe list, in glob order),
skips devices that fail to open, takes the parsed device number as the
index and the trimmed capability card as the name (defaulting to
"Camera N"), then appends the Raspberry Pi cameras with paths `rpicam:i`
and indices `len(cameras) + i`, and finally calls `sort.Slice` with
`cameras[i].Index < cameras[j].Index`.

`sort.Slice` belongs to the Go standard library, an external collaborator;
it is modelled by its documented contract: the result is a permutation of
the input sorted by the comparison, and — explicitly documented — the sort
is NOT guaranteed to be stable, so the relative order of elements with
equal indices is unspecified.  The sorting function is therefore a
parameter constrained by `SortSliceContract`. -/

inductive DevicePath
  | video (n : Nat)
  | rpicam (n : Nat)
deriving Repr, DecidableEq

structure CameraDescriptor where
  path : DevicePath
  name : String
  index : Nat
deriving Repr, DecidableEq

/-- One `/dev/videoN` glob hit: the parsed device number, whether
`device.Open` succeeds, and the (null-trimmed) capability card name. -/
structure V4l2Probe where
  num : Nat
  openOk : Bool
  card : String
deriving Repr, DecidableEq

/-- The descriptor built for an openable V4L2 device. -/
def v4l2Info (d : V4l2Probe) : CameraDescriptor :=
  { path := .video d.num,
    name := if d.card = "" then "Camera " ++ toString d.num else d.card,
    index := d.num }

/-- The descriptor built for the i-th Raspberry Pi camera, appended after
`nextIndex` already-discovered devices. -/
def rpiInfo (nextIndex i : Nat) (nm : String) : CameraDescriptor :=
  { path := .rpicam i, name := "RPi Camera: " ++ nm, index := nextIndex + i }

/-- The merged, unsorted discovery list of `findCameraDevices`: openable
V4L2 devices in glob order, then the Raspberry Pi cameras with indices
starting at the V4L2 count. -/
def discoverMerged (v4l2 : List V4l2Probe) (rpi : List String) :
    List CameraDescriptor :=
  let cams := (v4l2.filter (fun d => d.openOk)).map v4l2Info
  cams ++ rpi.enum.map (fun p => rpiInfo cams.length p.1 p.2)

/-- The documented contract of `sort.Slice` with the less function
`cameras[i].Index < cameras[j].Index`: a permutation of the input,
non-decreasing in the index.  Stability is deliberately absent: Go
documents that `sort.Slice` is not guaranteed to be stable. -/
def SortSliceContract (f : List CameraDescriptor → List CameraDescriptor) :
    Prop :=
  ∀ l, (f l).Perm l ∧ (f l).Sorted (fun a b => a.index ≤ b.index)

/-- `findCameraDevices`, parameterised by the standard library's sorting
function. -/
def findCameraDevices (sortSlice : List CameraDescriptor → List CameraDescriptor)
    (v4l2 : List V4l2Probe) (rpi : List String) : List CameraDescriptor :=
  sortSlice (discoverMerged v4l2 rpi)

/-- A comparison sorting descending by index; its reverse sorts ascending
but puts equal-index elements in reversed relative order. -/
def revIdxLe (a b : CameraDescriptor) : Prop := b.index ≤ a.index

instance : DecidableRel revIdxLe := by
  unfold revIdxLe
  infer_instance

instance : IsTotal CameraDescriptor revIdxLe :=
  ⟨fun a b => le_total b.index a.index⟩

instance : IsTrans CameraDescriptor revIdxLe :=
  ⟨fun _ _ _ hab hbc => le_trans hbc hab⟩

/-- A sorting function allowed by the `sort.Slice` contract that reverses
the relative order of elements with equal indices. -/
def tieReversingSort (l : List CameraDescriptor) : List CameraDescriptor :=
  (List.insertionSort revIdxLe l).reverse

/-- `tieReversingSort` satisfies everything Go documents about
`sort.Slice`. -/
theorem tieReversingSort_contract : SortSliceContract tieReversingSort := by
  intro l
  constructor
  · exact (List.reverse_perm _).trans (List.perm_insertionSort revIdxLe l)
  · have h := List.sorted_insertionSort revIdxLe l
    unfold tieReversingSort List.Sorted
    rw [List.pairwise_reverse]
    exact h

/-- C7, counterexample.  Discovery of the openable devices /dev/video0 and
/dev/video2 plus one Raspberry Pi camera produces an index tie: the RPi
descriptor also receives index 2.  Under a sorting behaviour permitted by
the documented `sort.Slice` contract, the tied descriptors come out in
reversed discovery order, so tie order is not guaranteed. -/
theorem findCameraDevices_tie_order_counterexample :
    SortSliceContract tieReversingSort ∧
      findCameraDevices tieReversingSort
          [⟨0, true, "Cam A"⟩, ⟨2, true, "Cam B"⟩] ["IMX219"] =
        [⟨.video 0, "Cam A", 0⟩, ⟨.rpicam 0, "RPi Camera: IMX219", 2⟩,
          ⟨.video 2, "Cam B", 2⟩] ∧
      findCameraDevices tieReversingSort
          [⟨0, true, "Cam A"⟩, ⟨2, true, "Cam B"⟩] ["IMX219"] ≠
        [⟨.video 0, "Cam A", 0⟩, ⟨.video 2, "Cam B", 2⟩,
          ⟨.rpicam 0, "RPi Camera: IMX219", 2⟩] := by
  refine ⟨tieReversingSort_contract, ?_, ?_⟩ <;> decide

/-- C7, amended.  `findCameraDevices` returns the merged list of V4L2 and
external-process descriptors sorted ascending by numeric index; the output
is a permutation of the merged discovery list, whose members are exactly
the openable V4L2 devices (index = device number) and the RPi cameras
(indices counting on from the V4L2 devices).  The relative order of two
descriptors sharing an index is NOT guaranteed to be the discovery order:
`sort.Slice` is documented as unstable (see the counterexample). -/
theorem findCameraDevices_sorted_spec
    (sortSlice : List CameraDescriptor → List CameraDescriptor)
    (hf : SortSliceContract sortSlice)
    (v4l2 : List V4l2Probe) (rpi : List String) :
    (findCameraDevices sortSlice v4l2 rpi).Sorted (fun a b => a.index ≤ b.index) ∧
      ∀ c, c ∈ findCameraDevices sortSlice v4l2 rpi ↔
        ((∃ d ∈ v4l2, d.openOk = true ∧ c = v4l2Info d) ∨
          (∃ i nm, rpi[i]? = some nm ∧
            c = rpiInfo ((v4l2.filter (fun d => d.openOk)).length) i nm)) := by
  refine ⟨(hf _).2, fun c => ?_⟩
  unfold findCameraDevices
  rw [(hf (discoverMerged v4l2 rpi)).1.mem_iff]
  unfold discoverMerged
  simp only [List.mem_append, List.mem_map, List.mem_filter,
    List.mem_enum_iff_getElem?, List.length_map]
  constructor
  · rintro (⟨d, ⟨hd, hopen⟩, rfl⟩ | ⟨p, hp, rfl⟩)
    · exact Or.inl ⟨d, hd, hopen, rfl⟩
    · exact Or.inr ⟨p.1, p.2, hp, rfl⟩
  · rintro (⟨d, hd, hopen, rfl⟩ | ⟨i, nm, hnm, rfl⟩)
    · exact Or.inl ⟨d, ⟨hd, hopen⟩, rfl⟩
    · exact Or.inr ⟨(i, nm), hnm, rfl⟩

/-- Witness for `findCameraDevices_sorted_spec` on a concrete discovery
with an index tie. -/
theorem findCameraDevices_sorted_spec_witness :
    (findCameraDevices tieReversingSort
        [⟨0, true, "Cam A"⟩, ⟨2, true, "Cam B"⟩] ["IMX219"]).Sorted
      (fun a b => a.index ≤ b.index) :=
  (findCameraDevices_sorted_spec tieReversingSort tieReversingSort_contract
    [⟨0, true, "Cam A"⟩, ⟨2, true, "Cam B"⟩] ["IMX219"]).1

end CamApp
